import Mathlib

/-
Verification development for the tauri-wpu-cam repository.

The program under study is a camera-to-GPU video pipeline. The binary crate
root is src-tauri/src/main.rs, which declares only the modules utils and
webgpu; the sibling files app.rs / commands.rs / camera.rs / windows.rs
are an in-progress refactor of the same code (their function bodies agree
with main.rs except where noted), so main.rs and the modules it declares
are taken as the authority.

Embedding conventions:
* Byte buffers are `List ℕ` whose elements are meant to be < 256.
* Rust slice indexing `xs[i]` panics when out of bounds; a computation that
  would panic is modelled as `Option.none`.
* The converter does its per-pixel arithmetic in f32.  Every intermediate
  value there is an integer of magnitude below 2^24 (|298*c + 516*d + 128|
  ≤ 298*239 + 516*127 + 128 < 2^18), hence exactly representable in f32,
  and the final division is by 256 = 2^8, whose result is a dyadic rational
  with a < 2^18 numerator, again exact.  The f32 computation therefore
  coincides with exact rational arithmetic and is embedded over ℚ.
  `.clamp(0.0, 255.0) as u8` first clamps into [0, 255] and then truncates
  toward zero, which on the clamped non-negative value is the floor.
-/

set_option maxRecDepth 10000

/-! ## Color converter: `yuyv_to_rgba` (src-tauri/src/utils.rs, lines 5-36) -/

/-- Embedding of `r.clamp(0.0, 255.0) as u8` applied to an exact rational
value: clamp into [0, 255] (Rust `clamp(lo, hi)` is `min (max x lo) hi`),
then truncate toward zero (= floor, as the value is non-negative). -/
def clampByteQ (q : ℚ) : ℕ := (⌊min (max q 0) 255⌋).toNat

/-- The per-pixel body of `yuyv_to_rgba` (utils.rs lines 21-32): the
studio-range YUV → RGBA transform applied to one pixel's samples, in exact
rational arithmetic (see the f32 exactness note in the file header). -/
def rgbaBytes (y u v : ℕ) : List ℕ :=
  let c : ℚ := (y : ℚ) - 16
  let d : ℚ := (u : ℚ) - 128
  let e : ℚ := (v : ℚ) - 128
  [clampByteQ ((298 * c + 409 * e + 128) / 256),
   clampByteQ ((298 * c - 100 * d - 208 * e + 128) / 256),
   clampByteQ ((298 * c + 516 * d + 128) / 256),
   255]

/-- The reads performed for output pixel `i` by the closure in
`yuyv_to_rgba` (utils.rs lines 12-19): `yuyv_index = (i / 2) * 4`; the luma
byte is at `yuyv_index` for even `i` and `yuyv_index + 2` for odd `i`; the
chroma bytes are at `yuyv_index + 1` and `yuyv_index + 3`.  `none` models
the bounds-check panic of Rust slice indexing. -/
def yuyvPixelBytes (yuyv : List ℕ) (i : ℕ) : Option (List ℕ) :=
  let yuyv_index := (i / 2) * 4
  let yIndex := if i % 2 = 0 then yuyv_index else yuyv_index + 2
  match yuyv[yIndex]?, yuyv[yuyv_index + 1]?, yuyv[yuyv_index + 3]? with
  | some y, some u, some v => some (rgbaBytes y u v)
  | _, _, _ => none

/-- The four bytes written into output chunk `i`; the default is the
zero-initialised buffer content (`vec![0u8; pixel_count * 4]`) and is only
reachable when the pixel's reads are out of bounds. -/
def pixelChunk (yuyv : List ℕ) (i : ℕ) : List ℕ :=
  (yuyvPixelBytes yuyv i).getD [0, 0, 0, 0]

/-- Embedding of `yuyv_to_rgba(yuyv, width, height)` (utils.rs lines 5-36).
The Rust function allocates `vec![0u8; pixel_count * 4]` and fills each
4-byte chunk `i` of it via `par_chunks_exact_mut(4).enumerate()`; the
chunks tile the whole buffer, so a completed run equals the concatenation
of the per-pixel chunks.  If any pixel's read is out of bounds the run
panics, modelled as `none`. -/
def yuyv_to_rgba (yuyv : List ℕ) (width height : ℕ) : Option (List ℕ) :=
  let pixel_count := width * height
  if (List.range pixel_count).all fun i => (yuyvPixelBytes yuyv i).isSome
  then some ((List.range pixel_count).map (pixelChunk yuyv)).flatten
  else none

/-- Integer restatement of the spec's per-channel formula
`clamp((...)/256, 0, 255)` with floor division, used to compare the code's
rational computation against the claim's closed form. -/
def clampByteZ (n : ℤ) : ℕ := (min (max (n / 256) 0) 255).toNat

/-- Spec formula for the R byte: `c = Y-16, e = V-128,
R = clamp((298c + 409e + 128)/256, 0, 255)`. -/
def specR (y v : ℕ) : ℕ :=
  clampByteZ (298 * ((y : ℤ) - 16) + 409 * ((v : ℤ) - 128) + 128)

/-- Spec formula for the G byte: `G = clamp((298c - 100d - 208e + 128)/256, 0, 255)`. -/
def specG (y u v : ℕ) : ℕ :=
  clampByteZ (298 * ((y : ℤ) - 16) - 100 * ((u : ℤ) - 128) - 208 * ((v : ℤ) - 128) + 128)

/-- Spec formula for the B byte: `B = clamp((298c + 516d + 128)/256, 0, 255)`. -/
def specB (y u : ℕ) : ℕ :=
  clampByteZ (298 * ((y : ℤ) - 16) + 516 * ((u : ℤ) - 128) + 128)

/-! ## Scheduled model of the parallel chunk loop (for determinism)

`rgba.par_chunks_exact_mut(4)` hands out disjoint 4-byte chunks of the
zero-initialised output to rayon worker threads.  A run of the parallel
loop is modelled as a sequential fold of the per-chunk writes in an
arbitrary order (a permutation of `range pixel_count`): each write is the
value the closure computes for that chunk, which depends only on the chunk
index and the immutable input. -/

/-- Write the 4 bytes of chunk `i` into the flat buffer at positions
`4*i .. 4*i+3`. -/
def writeChunk (buf : List ℕ) (i : ℕ) (bytes : List ℕ) : List ℕ :=
  ((((buf.set (4 * i) (bytes.getD 0 0)).set (4 * i + 1) (bytes.getD 1 0)).set
      (4 * i + 2) (bytes.getD 2 0)).set (4 * i + 3) (bytes.getD 3 0))

/-- One worker's action for chunk `i`. -/
def parWrite (yuyv : List ℕ) (buf : List ℕ) (i : ℕ) : List ℕ :=
  writeChunk buf i (pixelChunk yuyv i)

/-- A run of the parallel loop under write order `order` starting from the
zero-initialised output buffer `vec![0u8; pixel_count * 4]`. -/
def schedRun (yuyv : List ℕ) (pixel_count : ℕ) (order : List ℕ) : List ℕ :=
  order.foldl (parWrite yuyv) (List.replicate (4 * pixel_count) 0)

/-! ## Geometry (src-tauri/src/windows.rs lines 10-26, main.rs lines 191-209,
392-404) -/

/-- `CAMERA_SIZE_FRACTION` is the f32 literal `0.4`, whose exact value is
13421773 / 2^25. -/
def CAMERA_SIZE_FRACTION : ℚ := 13421773 / 33554432

/-- Embedding of `calculate_overlay_geometry` (windows.rs lines 10-26;
identical copy in main.rs lines 191-209).  Position components are ℤ (i32
without overflow); the two `as u32` casts truncate toward zero and
saturate negatives to 0, which `Int.toNat ∘ floor` reproduces for the
values reachable with a positive aspect ratio.  `mainH` is accepted but
unused, as in the source.  The returned size applies the source's
`.max(1)` clamps. -/
def calculate_overlay_geometry (mainX mainY : ℤ) (mainW mainH : ℕ)
    (camera_aspect : ℚ) : (ℤ × ℤ) × (ℕ × ℕ) :=
  let overlay_width : ℤ := ⌊(mainW : ℚ) * CAMERA_SIZE_FRACTION⌋
  let overlay_height : ℤ := ⌊(overlay_width : ℚ) / camera_aspect⌋
  let overlay_x : ℤ := mainX + (mainW : ℤ) - overlay_width - 20
  let overlay_y : ℤ := mainY + 20
  ((overlay_x, overlay_y), (overlay_width.toNat.max 1, overlay_height.toNat.max 1))

/-- Embedding of the in-frame quad layout computed by the render loop
(main.rs lines 392-404; same code in app.rs lines 98-110): camera aspect
`width/height` against `config.width/config.height`, then the two-branch
letterbox/pillarbox size, always at position (0, 0).  The code performs
these divisions on the raw dimensions with no clamping; a division whose
divisor is zero yields f32 inf/NaN, which ℚ cannot represent and is
modelled as `none`.  (In the else branch the divisor `window_aspect` is
zero exactly when `cfgW = 0`, which there forces `camW = 0`.) -/
def quadLayout (camW camH cfgW cfgH : ℕ) : Option ((ℚ × ℚ) × (ℚ × ℚ)) :=
  if camH = 0 ∨ cfgH = 0 then none
  else
    let camera_aspect : ℚ := (camW : ℚ) / (camH : ℚ)
    let window_aspect : ℚ := (cfgW : ℚ) / (cfgH : ℚ)
    if window_aspect < camera_aspect then
      some ((0, 0), (2, 2 / camera_aspect * window_aspect))
    else if cfgW = 0 then none
    else some ((0, 0), (2 * camera_aspect / window_aspect, 2))

/-- The `.max(1)` clamp applied to surface-configuration dimensions at
every write site of the stored config: `WgpuState::new` (webgpu.rs lines
173-174), `switch_surface` (webgpu.rs lines 214-215) and
`sync_overlay_with_main` (windows.rs lines 151-152 / main.rs lines
290-291). -/
def configClampDims (w h : ℕ) : ℕ × ℕ := (w.max 1, h.max 1)

/-! ## Render-loop surface acquisition (main.rs lines 468-489; app.rs lines
171-190) -/

/-- The variants of `wgpu::SurfaceError` distinguished by the render
loop's match. -/
inductive SurfaceError where
  | timeout
  | outdated
  | lost
  | outOfMemory
  | other
deriving DecidableEq

/-- Embedding of the acquisition match in the render loop: `first` is the
result of the initial `surface.get_current_texture()`, `second` the result
of the retry attempted after the single reconfigure.  Returns the acquired
texture (`none` = skip this frame) and how many times
`surface.configure(&device, &config)` ran on this path. -/
def getCurrentTextureWithRetry (first second : Except SurfaceError ℕ) :
    Option ℕ × ℕ :=
  match first with
  | .ok output => (some output, 0)
  | .error .outdated | .error .lost =>
      (match second with
       | .ok output => some output
       | .error _ => none, 1)
  | .error _ => (none, 0)

/-- Per-frame oracle: the outcomes the GPU surface would give to the first
acquisition attempt and to a retry. -/
structure FrameAcq where
  first : Except SurfaceError ℕ
  second : Except SurfaceError ℕ

/-- Counters observed over a whole run of the render loop. -/
structure LoopStats where
  received : ℕ
  presented : ℕ
  reconfigures : ℕ
deriving DecidableEq

/-- Embedding of `while let Ok(buffer) = rx.recv() { ... }` (main.rs lines
367-530) restricted to its acquisition/present structure: one iteration
per received frame, present exactly when acquisition (with its single
retry) succeeded, and continue with the next frame otherwise; the loop
ends when the channel is exhausted. -/
def renderLoop : List FrameAcq → LoopStats
  | [] => ⟨0, 0, 0⟩
  | f :: rest =>
      let acq := getCurrentTextureWithRetry f.first f.second
      let s := renderLoop rest
      ⟨s.received + 1, s.presented + (if acq.1.isSome then 1 else 0),
       s.reconfigures + acq.2⟩

/-! ## Camera producer task (main.rs lines 345-360; app.rs lines 54-67) -/

/-- Embedding of the producer `for _i in 0..1000 { let buffer =
camera.frame(); if tx.send(buffer).is_err() { break } }`: `cam i` is the
i-th frame the camera yields, `sendOk i` tells whether the i-th send
succeeds (the receiver is still alive); the frames that reach the channel
are those before the first failed send, at most 1000. -/
def producedFrames (cam : ℕ → ℕ) (sendOk : ℕ → Bool) : List ℕ :=
  ((List.range 1000).takeWhile sendOk).map cam

/-! ## Mode-toggle control path (main.rs lines 47-177)

`toggle_camera_mode` manipulates three `AtomicBool`s with `Ordering::SeqCst`
and calls `switch_surface` once on its non-debounced path.  Sequential
consistency lets a run of one or two concurrent calls be modelled as an
interleaving of the atomic accesses.  `TogglePhase` is the program counter
of one call, with its local variables stored in the constructor arguments;
each `stepToggle` transition performs the shared-memory accesses between
two consecutive points of the source:
* `start → checked old`: `switch_in_progress.swap(true)` (line 54);
* `checked true → finished ret false`: the debounce branch returns
  `is_background_mode.load()` (line 55) with no switch;
* `checked false → modeRead cur`: `is_background_mode.load()` (line 59);
* `modeRead cur → modeStored (!cur)`: `is_background_mode.store(!cur)`
  (lines 60-63);
* `modeStored m → pauseSet m`: `render_paused.store(true)` (line 66),
  followed by the grace sleep (line 69) and the window-transparency and
  window create/close work (lines 71-162), none of which touch the flags;
* `pauseSet m → switched m`: the `wgpu_state.switch_surface(..)` call
  (line 114 or 164) — the ghost flag `didSwitch` in `finished` records
  that this call happened;
* `switched m → resumed m`: `render_paused.store(false)` (line 172);
* `resumed m → finished m true`: `switch_in_progress.store(false)`
  (line 173), then return `new_mode` (line 176). -/

/-- Program counter (plus locals) of one `toggle_camera_mode` call. -/
inductive TogglePhase where
  | start
  | checked (old : Bool)
  | modeRead (cur : Bool)
  | modeStored (m : Bool)
  | pauseSet (m : Bool)
  | switched (m : Bool)
  | resumed (m : Bool)
  | finished (ret : Bool) (didSwitch : Bool)
deriving DecidableEq

/-- The three shared atomic flags of `AppState` (main.rs lines 27-34). -/
structure AppState where
  is_background_mode : Bool
  render_paused : Bool
  switch_in_progress : Bool
deriving DecidableEq

/-- One atomic step of a `toggle_camera_mode` call (see the block comment
above for the line-by-line correspondence). -/
def stepToggle (s : AppState) : TogglePhase → AppState × TogglePhase
  | .start => ({ s with switch_in_progress := true }, .checked s.switch_in_progress)
  | .checked true => (s, .finished s.is_background_mode false)
  | .checked false => (s, .modeRead s.is_background_mode)
  | .modeRead cur => ({ s with is_background_mode := !cur }, .modeStored (!cur))
  | .modeStored m => ({ s with render_paused := true }, .pauseSet m)
  | .pauseSet m => (s, .switched m)
  | .switched m => ({ s with render_paused := false }, .resumed m)
  | .resumed m => ({ s with switch_in_progress := false }, .finished m true)
  | .finished r sw => (s, .finished r sw)

/-- Two concurrent `toggle_camera_mode` calls over the shared flags. -/
structure SysConfig where
  shared : AppState
  t1 : TogglePhase
  t2 : TogglePhase
deriving DecidableEq

/-- Scheduler step: `who = true` advances call 1, otherwise call 2 (a
finished call steps to itself). -/
def stepSys (c : SysConfig) (who : Bool) : SysConfig :=
  if who then
    ⟨(stepToggle c.shared c.t1).1, (stepToggle c.shared c.t1).2, c.t2⟩
  else
    ⟨(stepToggle c.shared c.t2).1, c.t1, (stepToggle c.shared c.t2).2⟩

/-- Run a schedule (list of scheduler choices). -/
def runSys (c : SysConfig) (sched : List Bool) : SysConfig :=
  sched.foldl stepSys c

/-- Initial configuration: flags as built by `AppState::default()` (mode
`m0`, not paused, no switch in progress) with both calls about to start. -/
def initSys (m0 : Bool) : SysConfig :=
  ⟨⟨m0, false, false⟩, .start, .start⟩

/-- A call is inside the non-debounced body (it has observed
`switch_in_progress = false` at its swap and has not yet cleared the
flag). -/
def inBody : TogglePhase → Bool
  | .checked old => !old
  | .modeRead _ | .modeStored _ | .pauseSet _ | .switched _ | .resumed _ => true
  | _ => false

/-- A call is between its `render_paused.store(true)` and its
`render_paused.store(false)`, i.e. its `switch_surface` call is imminent
or just completed. -/
def holdsPause : TogglePhase → Bool
  | .pauseSet _ | .switched _ => true
  | _ => false

/-- A call has already executed its `is_background_mode.store(!cur)`. -/
def flippedMode : TogglePhase → Bool
  | .modeStored _ | .pauseSet _ | .switched _ | .resumed _ => true
  | .finished _ sw => sw
  | _ => false

/-- A call has entered (or completed) the non-debounced body. -/
def performedBody (p : TogglePhase) : Bool :=
  inBody p || (match p with | .finished _ sw => sw | _ => false)

/-- A call is on (or finished via) the debounce no-op branch. -/
def isNoop : TogglePhase → Bool
  | .checked old => old
  | .finished _ sw => !sw
  | _ => false

/-- A call is about to execute its `switch_surface` call. -/
def atSwitchCall : TogglePhase → Bool
  | .pauseSet _ => true
  | _ => false

/-- Local-variable consistency: a call that has loaded the mode but not
yet stored its negation holds the current shared mode. -/
def readConsistent (p : TogglePhase) (m : Bool) : Bool :=
  match p with
  | .modeRead x => x == m
  | _ => true

/-- Global invariant of the two-call system: mutual exclusion of the
bodies, the `switch_in_progress` and `render_paused` flags mirror which
call is in its body / holds the pause, the shared mode is the initial mode
XORed with the completed flips, loaded locals are consistent, and a
debounced call implies the other call entered the body. -/
def InvB (m0 : Bool) (c : SysConfig) : Bool :=
  (!(inBody c.t1 && inBody c.t2))
  && (c.shared.switch_in_progress == (inBody c.t1 || inBody c.t2))
  && (c.shared.render_paused == (holdsPause c.t1 || holdsPause c.t2))
  && (c.shared.is_background_mode == ((flippedMode c.t1).xor ((flippedMode c.t2).xor m0)))
  && readConsistent c.t1 c.shared.is_background_mode
  && readConsistent c.t2 c.shared.is_background_mode
  && (!(isNoop c.t1) || performedBody c.t2)
  && (!(isNoop c.t2) || performedBody c.t1)

/-- Explicit enumeration of `TogglePhase` (used to keep the exhaustive
finite checks within the kernel's stack). -/
def allPhases : List TogglePhase :=
  [.start, .checked false, .checked true, .modeRead false, .modeRead true,
   .modeStored false, .modeStored true, .pauseSet false, .pauseSet true,
   .switched false, .switched true, .resumed false, .resumed true,
   .finished false false, .finished false true, .finished true false,
   .finished true true]

/-- Explicit enumeration of `Bool`. -/
def allBools : List Bool := [false, true]

/-- Exhaustive finite check of a boolean property over every
configuration of the two-call system and every initial mode (the explicit
enumerations keep the kernel's evaluation shallow). -/
def checkAll (g : Bool → SysConfig → Bool) : Bool :=
  allBools.all fun m0 => allBools.all fun m => allBools.all fun p =>
  allBools.all fun ip => allPhases.all fun t1 => allPhases.all fun t2 =>
    g m0 ⟨⟨m, p, ip⟩, t1, t2⟩

/-- A call has returned. -/
def isFinished : TogglePhase → Bool
  | .finished _ _ => true
  | _ => false

/-- A call has returned after performing the surface switch. -/
def isFinishedSwitch : TogglePhase → Bool
  | .finished _ sw => sw
  | _ => false

/-- A call has returned via the debounce no-op branch (no surface switch). -/
def isFinishedNoSwitch : TogglePhase → Bool
  | .finished _ sw => !sw
  | _ => false

/-! ## Helper lemmas: converter arithmetic -/

/-- Flooring commutes with the clamp against the integer bounds 0 and 255. -/
theorem floor_clamp (q : ℚ) : ⌊min (max q 0) 255⌋ = min (max ⌊q⌋ 0) 255 := by
  rcases le_total q 0 with h | h
  · have h0 : ⌊q⌋ ≤ 0 := by simpa using Int.floor_le_floor h
    rw [max_eq_right h, max_eq_right h0]
    norm_num
  · have h0 : (0 : ℤ) ≤ ⌊q⌋ := by simpa using Int.floor_le_floor h
    rw [max_eq_left h, max_eq_left h0]
    rcases le_total q 255 with h2 | h2
    · have h3 : ⌊q⌋ ≤ 255 := by simpa using Int.floor_le_floor h2
      rw [min_eq_left h2, min_eq_left h3]
    · have h3 : (255 : ℤ) ≤ ⌊q⌋ := by
        simpa using Int.le_floor.mpr h2
      rw [min_eq_right h2, min_eq_right h3]
      norm_num

/-- The code's clamp-then-truncate over ℚ agrees with the integer
restatement when the pre-division value is the integer `n`. -/
theorem clampByteQ_intCast_div (n : ℤ) : clampByteQ ((n : ℚ) / 256) = clampByteZ n := by
  unfold clampByteQ clampByteZ
  rw [floor_clamp]
  have hf : ⌊((n : ℚ)) / 256⌋ = n / 256 := by
    exact_mod_cast Rat.floor_intCast_div_natCast n 256
  rw [hf]

/-- The per-pixel body computes exactly the spec's integer formulas. -/
theorem rgbaBytes_eq_spec (y u v : ℕ) :
    rgbaBytes y u v = [specR y v, specG y u v, specB y u, 255] := by
  unfold rgbaBytes specR specG specB
  have h1 : 298 * ((y : ℚ) - 16) + 409 * ((v : ℚ) - 128) + 128
      = ((298 * ((y : ℤ) - 16) + 409 * ((v : ℤ) - 128) + 128 : ℤ) : ℚ) := by
    push_cast; ring
  have h2 : 298 * ((y : ℚ) - 16) - 100 * ((u : ℚ) - 128) - 208 * ((v : ℚ) - 128) + 128
      = ((298 * ((y : ℤ) - 16) - 100 * ((u : ℤ) - 128) - 208 * ((v : ℤ) - 128) + 128 : ℤ) : ℚ) := by
    push_cast; ring
  have h3 : 298 * ((y : ℚ) - 16) + 516 * ((u : ℚ) - 128) + 128
      = ((298 * ((y : ℤ) - 16) + 516 * ((u : ℤ) - 128) + 128 : ℤ) : ℚ) := by
    push_cast; ring
  simp only [h1, h2, h3, clampByteQ_intCast_div]

/-- The value of one pixel once all three reads are in bounds. -/
theorem yuyvPixelBytes_eq (yuyv : List ℕ) (i y u v : ℕ)
    (hy : yuyv[(if i % 2 = 0 then (i / 2) * 4 else (i / 2) * 4 + 2)]? = some y)
    (hu : yuyv[(i / 2) * 4 + 1]? = some u)
    (hv : yuyv[(i / 2) * 4 + 3]? = some v) :
    yuyvPixelBytes yuyv i = some (rgbaBytes y u v) := by
  unfold yuyvPixelBytes
  simp only []
  rw [hy, hu, hv]

/-- One pixel's reads stay in bounds when the group end is in bounds. -/
theorem yuyvPixelBytes_isSome_of (yuyv : List ℕ) (i : ℕ)
    (hlt : (i / 2) * 4 + 3 < yuyv.length) :
    (yuyvPixelBytes yuyv i).isSome = true := by
  have hy : (if i % 2 = 0 then (i / 2) * 4 else (i / 2) * 4 + 2) < yuyv.length := by
    split <;> omega
  rw [yuyvPixelBytes_eq yuyv i _ _ _ (List.getElem?_eq_getElem hy)
    (List.getElem?_eq_getElem (by omega)) (List.getElem?_eq_getElem hlt)]
  rfl

/-- Every output chunk has 4 bytes. -/
theorem pixelChunk_length (yuyv : List ℕ) (i : ℕ) : (pixelChunk yuyv i).length = 4 := by
  unfold pixelChunk yuyvPixelBytes
  cases h1 : yuyv[(if i % 2 = 0 then (i / 2) * 4 else (i / 2) * 4 + 2)]? <;>
    cases h2 : yuyv[(i / 2) * 4 + 1]? <;>
    cases h3 : yuyv[(i / 2) * 4 + 3]? <;>
    simp [h1, h2, h3, rgbaBytes]

/-- When the pixel count is even, every read of every pixel is in bounds of
a buffer of length `2 * pixel_count`. -/
theorem yuyv_group_inbounds (len pc i : ℕ) (hev : pc % 2 = 0)
    (hlen : 2 * pc ≤ len) (hi : i < pc) : (i / 2) * 4 + 3 < len := by
  omega

/-- On an even pixel count and a contract-satisfying length, the conversion
completes and equals the concatenation of the per-pixel chunks. -/
theorem yuyv_to_rgba_eq (yuyv : List ℕ) (width height : ℕ)
    (hev : (width * height) % 2 = 0)
    (hlen : yuyv.length = 2 * (width * height)) :
    yuyv_to_rgba yuyv width height
      = some ((List.range (width * height)).map (pixelChunk yuyv)).flatten := by
  unfold yuyv_to_rgba
  rw [if_pos]
  rw [List.all_eq_true]
  intro i hi
  rw [List.mem_range] at hi
  exact yuyvPixelBytes_isSome_of yuyv i
    (yuyv_group_inbounds yuyv.length (width * height) i hev (by omega) hi)

/-- Length of a flatten of 4-byte chunks. -/
theorem flatten_length_of_chunks (L : List (List ℕ)) (hL : ∀ c ∈ L, c.length = 4) :
    L.flatten.length = 4 * L.length := by
  induction L with
  | nil => simp
  | cons c L ih =>
      have hc : c.length = 4 := hL c (by simp)
      have hrest : ∀ x ∈ L, x.length = 4 := fun x hx => hL x (by simp [hx])
      simp only [List.flatten_cons, List.length_append, List.length_cons, ih hrest, hc]
      ring

/-- Position `4*i + k` of a flatten of 4-byte chunks reads byte `k` of
chunk `i`. -/
theorem flatten_getElem?_of_chunks (L : List (List ℕ)) (hL : ∀ c ∈ L, c.length = 4)
    (i k : ℕ) (hi : i < L.length) (hk : k < 4) :
    L.flatten[4 * i + k]? = (L.getD i [])[k]? := by
  induction L generalizing i with
  | nil => simp at hi
  | cons c L ih =>
      have hc : c.length = 4 := hL c (by simp)
      have hrest : ∀ x ∈ L, x.length = 4 := fun x hx => hL x (by simp [hx])
      cases i with
      | zero =>
          simp only [List.flatten_cons, Nat.mul_zero, Nat.zero_add]
          rw [List.getElem?_append]
          rw [if_pos (by omega)]
          rfl
      | succ j =>
          have hj : j < L.length := by simpa using hi
          simp only [List.flatten_cons]
          rw [List.getElem?_append_right (by omega)]
          have harith : 4 * (j + 1) + k - c.length = 4 * j + k := by omega
          rw [harith, ih hrest j hj]
          rfl

/-! ## Claim C1 -/

/-- C1 counterexample: the call `yuyv_to_rgba([128, 128], 1, 1)` satisfies
the contract `len(input) == 2*width*height`, yet pixel 0 reads offsets 1
and 3 of its 4-byte group, and offset 3 is out of bounds of the 2-byte
input — the function performs no length validation and the run panics
(modelled as `none`), refuting the claim as stated for odd pixel counts. -/
theorem yuyv_to_rgba_oob_cex :
    ([128, 128] : List ℕ).length = 2 * (1 * 1) ∧
    yuyv_to_rgba [128, 128] 1 1 = none := by
  exact ⟨rfl, by decide⟩

/-- C1 (amended): for every call with `len(input) == 2*width*height` whose
pixel count `width*height` is even (as is the case for the even frame
widths the packed format implies), every index the conversion reads is
within the input and the conversion completes without any out-of-bounds
access. -/
theorem yuyv_to_rgba_inbounds (yuyv : List ℕ) (width height : ℕ)
    (hev : (width * height) % 2 = 0)
    (hlen : yuyv.length = 2 * (width * height)) :
    (yuyv_to_rgba yuyv width height).isSome = true := by
  rw [yuyv_to_rgba_eq yuyv width height hev hlen]
  rfl

/-- C1 witness: the amended theorem applied at a concrete even-sized call. -/
theorem yuyv_to_rgba_inbounds_witness :
    (2 * 1) % 2 = 0 ∧ ([0, 0, 0, 0] : List ℕ).length = 2 * (2 * 1) ∧
    (yuyv_to_rgba [0, 0, 0, 0] 2 1).isSome = true :=
  ⟨rfl, rfl, yuyv_to_rgba_inbounds [0, 0, 0, 0] 2 1 rfl rfl⟩

/-! ## Claim C2 -/

/-- C2: for every input of length `2*width*height` with even width,
`yuyv_to_rgba` returns a buffer of length exactly `4*width*height` in
which pixel `i` takes its luma from the 4-byte group at `(i/2)*4` (first
sample if `i` is even, second if odd), reads the group's two chroma
samples (offsets 1 and 3, shared with its pair pixel), and its R, G, B
bytes equal the studio-range transform `c=Y-16, d=U-128, e=V-128`,
`R=clamp((298c+409e+128)/256, 0, 255)`,
`G=clamp((298c-100d-208e+128)/256, 0, 255)`,
`B=clamp((298c+516d+128)/256, 0, 255)`, with alpha byte 255. -/
theorem yuyv_to_rgba_formula (yuyv : List ℕ) (width height : ℕ)
    (hw : width % 2 = 0) (hlen : yuyv.length = 2 * (width * height)) :
    ∃ out, yuyv_to_rgba yuyv width height = some out ∧
      out.length = 4 * (width * height) ∧
      ∀ i < width * height, ∃ y u v,
        yuyv[(if i % 2 = 0 then (i / 2) * 4 else (i / 2) * 4 + 2)]? = some y ∧
        yuyv[(i / 2) * 4 + 1]? = some u ∧
        yuyv[(i / 2) * 4 + 3]? = some v ∧
        out[4 * i]? = some (specR y v) ∧
        out[4 * i + 1]? = some (specG y u v) ∧
        out[4 * i + 2]? = some (specB y u) ∧
        out[4 * i + 3]? = some 255 := by
  have hev : (width * height) % 2 = 0 := by
    rw [Nat.mul_mod, hw]
    simp
  refine ⟨_, yuyv_to_rgba_eq yuyv width height hev hlen, ?_, ?_⟩
  · rw [flatten_length_of_chunks]
    · simp
    · intro c hc
      rw [List.mem_map] at hc
      obtain ⟨j, _, rfl⟩ := hc
      exact pixelChunk_length yuyv j
  · intro i hi
    have hlt : (i / 2) * 4 + 3 < yuyv.length :=
      yuyv_group_inbounds yuyv.length (width * height) i hev (by omega) hi
    have hy : (if i % 2 = 0 then (i / 2) * 4 else (i / 2) * 4 + 2) < yuyv.length := by
      split <;> omega
    have hchunk : pixelChunk yuyv i
        = [specR yuyv[(if i % 2 = 0 then (i / 2) * 4 else (i / 2) * 4 + 2)]
            yuyv[(i / 2) * 4 + 3],
           specG yuyv[(if i % 2 = 0 then (i / 2) * 4 else (i / 2) * 4 + 2)]
            yuyv[(i / 2) * 4 + 1] yuyv[(i / 2) * 4 + 3],
           specB yuyv[(if i % 2 = 0 then (i / 2) * 4 else (i / 2) * 4 + 2)]
            yuyv[(i / 2) * 4 + 1], 255] := by
      unfold pixelChunk
      rw [yuyvPixelBytes_eq yuyv i _ _ _ (List.getElem?_eq_getElem hy)
        (List.getElem?_eq_getElem (by omega)) (List.getElem?_eq_getElem hlt)]
      rw [Option.getD_some, rgbaBytes_eq_spec]
    have hmapchunks : ∀ c ∈ (List.range (width * height)).map (pixelChunk yuyv),
        c.length = 4 := by
      intro c hc
      rw [List.mem_map] at hc
      obtain ⟨j, _, rfl⟩ := hc
      exact pixelChunk_length yuyv j
    have hgd : ((List.range (width * height)).map (pixelChunk yuyv)).getD i []
        = pixelChunk yuyv i := by
      rw [List.getD_eq_getElem?_getD, List.getElem?_map, List.getElem?_range hi]
      rfl
    refine ⟨yuyv[(if i % 2 = 0 then (i / 2) * 4 else (i / 2) * 4 + 2)],
      yuyv[(i / 2) * 4 + 1], yuyv[(i / 2) * 4 + 3],
      List.getElem?_eq_getElem hy, List.getElem?_eq_getElem (by omega),
      List.getElem?_eq_getElem hlt, ?_, ?_, ?_, ?_⟩
    · rw [show 4 * i = 4 * i + 0 by ring,
        flatten_getElem?_of_chunks _ hmapchunks i 0 (by simpa using hi) (by omega),
        hgd, hchunk]
      rfl
    · rw [flatten_getElem?_of_chunks _ hmapchunks i 1 (by simpa using hi) (by omega),
        hgd, hchunk]
      rfl
    · rw [flatten_getElem?_of_chunks _ hmapchunks i 2 (by simpa using hi) (by omega),
        hgd, hchunk]
      rfl
    · rw [flatten_getElem?_of_chunks _ hmapchunks i 3 (by simpa using hi) (by omega),
        hgd, hchunk]
      rfl

/-- C2 witness: the theorem applied to a concrete 2-by-1 all-128 frame. -/
theorem yuyv_to_rgba_formula_witness :
    2 % 2 = 0 ∧ ([128, 128, 128, 128] : List ℕ).length = 2 * (2 * 1) ∧
    (∃ out, yuyv_to_rgba [128, 128, 128, 128] 2 1 = some out ∧
      out.length = 4 * (2 * 1) ∧
      ∀ i < 2 * 1, ∃ y u v,
        ([128, 128, 128, 128] : List ℕ)[(if i % 2 = 0 then (i / 2) * 4 else (i / 2) * 4 + 2)]?
          = some y ∧
        ([128, 128, 128, 128] : List ℕ)[(i / 2) * 4 + 1]? = some u ∧
        ([128, 128, 128, 128] : List ℕ)[(i / 2) * 4 + 3]? = some v ∧
        out[4 * i]? = some (specR y v) ∧
        out[4 * i + 1]? = some (specG y u v) ∧
        out[4 * i + 2]? = some (specB y u) ∧
        out[4 * i + 3]? = some 255) :=
  ⟨rfl, rfl, yuyv_to_rgba_formula [128, 128, 128, 128] 2 1 rfl rfl⟩

/-! ## Claim C8 -/

/-- C8: for every even width and height, an input of length
`2*width*height` filled with the byte 128 converts to an output in which
every pixel is exactly (130, 130, 130, 255): with Y=U=V=128 one gets
c=112, d=e=0 and R=G=B=(298*112+128)/256 = 130.875, truncated to 130. -/
theorem yuyv_uniform_gray (width height : ℕ)
    (hw : width % 2 = 0) (hh : height % 2 = 0) :
    yuyv_to_rgba (List.replicate (2 * (width * height)) 128) width height
      = some ((List.replicate (width * height) ([130, 130, 130, 255] : List ℕ)).flatten) := by
  have hev : (width * height) % 2 = 0 := by
    rw [Nat.mul_mod, hw]
    simp
  rw [yuyv_to_rgba_eq _ width height hev (by simp)]
  have hmap : (List.range (width * height)).map
        (pixelChunk (List.replicate (2 * (width * height)) 128))
      = List.replicate (width * height) ([130, 130, 130, 255] : List ℕ) := by
    refine List.eq_replicate_iff.mpr ⟨by simp, ?_⟩
    intro b hb
    rw [List.mem_map] at hb
    obtain ⟨i, hi, rfl⟩ := hb
    rw [List.mem_range] at hi
    have hy : (List.replicate (2 * (width * height)) (128 : ℕ))[(if i % 2 = 0
        then (i / 2) * 4 else (i / 2) * 4 + 2)]? = some 128 := by
      rw [List.getElem?_replicate, if_pos (by split <;> omega)]
    have hu : (List.replicate (2 * (width * height)) (128 : ℕ))[(i / 2) * 4 + 1]?
        = some 128 := by
      rw [List.getElem?_replicate, if_pos (by omega)]
    have hv : (List.replicate (2 * (width * height)) (128 : ℕ))[(i / 2) * 4 + 3]?
        = some 128 := by
      rw [List.getElem?_replicate, if_pos (by omega)]
    unfold pixelChunk
    rw [yuyvPixelBytes_eq _ i 128 128 128 hy hu hv, Option.getD_some, rgbaBytes_eq_spec]
    decide
  rw [hmap]

/-- C8 witness: the theorem applied at width = height = 2. -/
theorem yuyv_uniform_gray_witness :
    2 % 2 = 0 ∧ 2 % 2 = 0 ∧
    yuyv_to_rgba (List.replicate (2 * (2 * 2)) 128) 2 2
      = some ((List.replicate (2 * 2) ([130, 130, 130, 255] : List ℕ)).flatten) :=
  ⟨rfl, rfl, yuyv_uniform_gray 2 2 rfl rfl⟩

/-! ## Claim C9 -/

/-- Reading position `n` after one chunk write: the write covers exactly
the four positions whose chunk index `n / 4` equals `j`. -/
theorem writeChunk_getElem? (buf : List ℕ) (j : ℕ) (bytes : List ℕ) (n : ℕ) :
    (writeChunk buf j bytes)[n]? =
      if n / 4 = j ∧ n < buf.length then some (bytes.getD (n % 4) 0)
      else buf[n]? := by
  unfold writeChunk
  simp only [List.getElem?_set, List.length_set]
  by_cases hj : n / 4 = j
  · by_cases hn : n < buf.length
    · rw [if_pos (show n / 4 = j ∧ n < buf.length from ⟨hj, hn⟩)]
      have h4 : n % 4 = 0 ∨ n % 4 = 1 ∨ n % 4 = 2 ∨ n % 4 = 3 := by omega
      rcases h4 with h | h | h | h
      · rw [if_neg (show ¬(4 * j + 3 = n) by omega),
          if_neg (show ¬(4 * j + 2 = n) by omega),
          if_neg (show ¬(4 * j + 1 = n) by omega),
          if_pos (show 4 * j = n by omega),
          if_pos (show 4 * j < buf.length by omega), h]
      · rw [if_neg (show ¬(4 * j + 3 = n) by omega),
          if_neg (show ¬(4 * j + 2 = n) by omega),
          if_pos (show 4 * j + 1 = n by omega),
          if_pos (show 4 * j + 1 < buf.length by omega), h]
      · rw [if_neg (show ¬(4 * j + 3 = n) by omega),
          if_pos (show 4 * j + 2 = n by omega),
          if_pos (show 4 * j + 2 < buf.length by omega), h]
      · rw [if_pos (show 4 * j + 3 = n by omega),
          if_pos (show 4 * j + 3 < buf.length by omega), h]
    · rw [if_neg (show ¬(n / 4 = j ∧ n < buf.length) from fun hc => hn hc.2)]
      have hnone : buf[n]? = none := List.getElem?_eq_none (by omega)
      have h4 : n % 4 = 0 ∨ n % 4 = 1 ∨ n % 4 = 2 ∨ n % 4 = 3 := by omega
      rcases h4 with h | h | h | h
      · rw [if_neg (show ¬(4 * j + 3 = n) by omega),
          if_neg (show ¬(4 * j + 2 = n) by omega),
          if_neg (show ¬(4 * j + 1 = n) by omega),
          if_pos (show 4 * j = n by omega),
          if_neg (show ¬(4 * j < buf.length) by omega), hnone]
      · rw [if_neg (show ¬(4 * j + 3 = n) by omega),
          if_neg (show ¬(4 * j + 2 = n) by omega),
          if_pos (show 4 * j + 1 = n by omega),
          if_neg (show ¬(4 * j + 1 < buf.length) by omega), hnone]
      · rw [if_neg (show ¬(4 * j + 3 = n) by omega),
          if_pos (show 4 * j + 2 = n by omega),
          if_neg (show ¬(4 * j + 2 < buf.length) by omega), hnone]
      · rw [if_pos (show 4 * j + 3 = n by omega),
          if_neg (show ¬(4 * j + 3 < buf.length) by omega), hnone]
  · rw [if_neg (show ¬(n / 4 = j ∧ n < buf.length) from fun hc => hj hc.1),
      if_neg (show ¬(4 * j + 3 = n) by omega),
      if_neg (show ¬(4 * j + 2 = n) by omega),
      if_neg (show ¬(4 * j + 1 = n) by omega),
      if_neg (show ¬(4 * j = n) by omega)]

/-- Reading position `n` after folding any sequence of chunk writes:
`n` holds its chunk's byte if its chunk index occurs in the write order,
and the untouched initial buffer content otherwise. -/
theorem foldl_parWrite_getElem? (yuyv : List ℕ) (order : List ℕ) (buf : List ℕ)
    (n : ℕ) :
    (order.foldl (parWrite yuyv) buf)[n]? =
      if n / 4 ∈ order ∧ n < buf.length
      then some ((pixelChunk yuyv (n / 4)).getD (n % 4) 0)
      else buf[n]? := by
  induction order generalizing buf with
  | nil => simp
  | cons j rest ih =>
      rw [List.foldl_cons, ih]
      have hlen : (parWrite yuyv buf j).length = buf.length := by
        unfold parWrite writeChunk
        simp [List.length_set]
      rw [hlen]
      by_cases hn : n < buf.length
      · by_cases hr : n / 4 ∈ rest
        · rw [if_pos ⟨hr, hn⟩, if_pos ⟨List.mem_cons.mpr (Or.inr hr), hn⟩]
        · rw [if_neg (fun hc => hr hc.1)]
          unfold parWrite
          rw [writeChunk_getElem?]
          by_cases hj : n / 4 = j
          · rw [if_pos ⟨hj, hn⟩, if_pos ⟨List.mem_cons.mpr (Or.inl hj), hn⟩, hj]
          · rw [if_neg (fun hc => hj hc.1), if_neg (fun hc => ?_)]
            rcases List.mem_cons.mp hc.1 with h | h
            · exact hj h
            · exact hr h
      · rw [if_neg (fun hc => hn hc.2), if_neg (fun hc => hn hc.2)]
        unfold parWrite
        rw [writeChunk_getElem?, if_neg (fun hc => hn hc.2)]

/-- C9: the parallel per-chunk iteration of `yuyv_to_rgba` introduces no
run-to-run variation: whenever a run completes with output `out`, every
execution order of the disjoint chunk writes (any permutation of
`range(width*height)`) produces exactly the same bytes `out`. -/
theorem yuyv_parallel_deterministic (yuyv : List ℕ) (width height : ℕ)
    (order : List ℕ) (out : List ℕ)
    (hperm : order.Perm (List.range (width * height)))
    (hout : yuyv_to_rgba yuyv width height = some out) :
    schedRun yuyv (width * height) order = out := by
  have hflat : out = ((List.range (width * height)).map (pixelChunk yuyv)).flatten := by
    unfold yuyv_to_rgba at hout
    by_cases hall : ((List.range (width * height)).all
        fun i => (yuyvPixelBytes yuyv i).isSome) = true
    · rw [if_pos hall] at hout
      exact (Option.some.injEq _ _ ▸ hout).symm
    · rw [if_neg hall] at hout
      exact absurd hout (by simp)
  have hmapchunks : ∀ c ∈ (List.range (width * height)).map (pixelChunk yuyv),
      c.length = 4 := by
    intro c hc
    rw [List.mem_map] at hc
    obtain ⟨j, _, rfl⟩ := hc
    exact pixelChunk_length yuyv j
  apply List.ext_getElem?
  intro n
  unfold schedRun
  rw [foldl_parWrite_getElem?, List.length_replicate]
  by_cases hn : n < 4 * (width * height)
  · have hmem : n / 4 ∈ order :=
      (hperm.mem_iff).mpr (List.mem_range.mpr (by omega))
    rw [if_pos ⟨hmem, hn⟩, hflat]
    have hgd : ((List.range (width * height)).map (pixelChunk yuyv)).getD (n / 4) []
        = pixelChunk yuyv (n / 4) := by
      rw [List.getD_eq_getElem?_getD, List.getElem?_map,
        List.getElem?_range (by omega : n / 4 < width * height)]
      rfl
    have hsplit :
        (((List.range (width * height)).map (pixelChunk yuyv)).flatten)[n]?
        = (((List.range (width * height)).map (pixelChunk yuyv)).flatten)[4 * (n / 4) + n % 4]? := by
      congr 1
      omega
    rw [hsplit,
      flatten_getElem?_of_chunks _ hmapchunks (n / 4) (n % 4) (by simpa using (by omega : n / 4 < width * height)) (by omega),
      hgd, List.getElem?_eq_getElem (by rw [pixelChunk_length]; omega),
      List.getD_eq_getElem?_getD, List.getElem?_eq_getElem (by rw [pixelChunk_length]; omega)]
    rfl
  · rw [if_neg (fun hc => hn hc.2), hflat,
      List.getElem?_eq_none (by rw [List.length_replicate]; omega),
      List.getElem?_eq_none]
    rw [flatten_length_of_chunks _ hmapchunks, List.length_map, List.length_range]
    omega

/-- C9 witness: the theorem applied to the 2-by-1 all-128 frame with the
chunk writes executed in reversed order. -/
theorem yuyv_parallel_deterministic_witness :
    ([1, 0] : List ℕ).Perm (List.range (2 * 1)) ∧
    yuyv_to_rgba [128, 128, 128, 128] 2 1
      = some [130, 130, 130, 255, 130, 130, 130, 255] ∧
    schedRun [128, 128, 128, 128] (2 * 1) [1, 0]
      = [130, 130, 130, 255, 130, 130, 130, 255] := by
  have hperm : ([1, 0] : List ℕ).Perm (List.range (2 * 1)) := by decide
  have h128 : rgbaBytes 128 128 128 = [130, 130, 130, 255] := by
    rw [rgbaBytes_eq_spec]
    decide
  have h0 : pixelChunk [128, 128, 128, 128] 0 = [130, 130, 130, 255] := by
    unfold pixelChunk
    rw [yuyvPixelBytes_eq _ 0 128 128 128 rfl rfl rfl, Option.getD_some, h128]
  have h1 : pixelChunk [128, 128, 128, 128] 1 = [130, 130, 130, 255] := by
    unfold pixelChunk
    rw [yuyvPixelBytes_eq _ 1 128 128 128 rfl rfl rfl, Option.getD_some, h128]
  have hout : yuyv_to_rgba [128, 128, 128, 128] 2 1
      = some [130, 130, 130, 255, 130, 130, 130, 255] := by
    rw [yuyv_to_rgba_eq [128, 128, 128, 128] 2 1 rfl rfl]
    rw [show List.range (2 * 1) = [0, 1] from rfl]
    simp [h0, h1]
  exact ⟨hperm, hout,
    yuyv_parallel_deterministic [128, 128, 128, 128] 2 1 [1, 0] _ hperm hout⟩

/-! ## Claim C6 -/

/-- C6 counterexample: for a 4x2 camera frame on a 2x1 render target both
aspect ratios are 2; the code takes the pillarbox branch and returns the
full quad (2, 2), whose ratio `size_x / size_y = 1` is not the camera
aspect ratio `ca = 2` (no floating-point tolerance bridges 1 and 2).  The
quantity that does equal `ca` is `(size_x / size_y) * ta`. -/
theorem quad_aspect_cex :
    quadLayout 4 2 2 1 = some ((0, 0), (2, 2)) ∧
    ¬ ((2 : ℚ) / 2 = (4 : ℚ) / 2) := by
  constructor
  · norm_num [quadLayout]
  · norm_num

/-- C6 (amended): under positive divisor dimensions the quad is centered
at the origin, sized `(2, 2*ta/ca)` when `ca > ta` and `(2*ca/ta, 2)`
otherwise, and its effective displayed aspect ratio
`(size_x / size_y) * ta` — the NDC ratio corrected by the target's own
aspect ratio `ta` — equals the camera aspect ratio `ca` exactly. -/
theorem quad_layout_aspect (camW camH cfgW cfgH : ℕ)
    (hcamH : 0 < camH) (hcfgW : 0 < cfgW) (hcfgH : 0 < cfgH) :
    ∃ sx sy : ℚ, quadLayout camW camH cfgW cfgH = some ((0, 0), (sx, sy)) ∧
      sx / sy * ((cfgW : ℚ) / cfgH) = (camW : ℚ) / camH ∧
      (((cfgW : ℚ) / cfgH) < (camW : ℚ) / camH →
        (sx, sy) = (2, 2 * ((cfgW : ℚ) / cfgH) / ((camW : ℚ) / camH))) ∧
      (¬ ((cfgW : ℚ) / cfgH) < (camW : ℚ) / camH →
        (sx, sy) = (2 * ((camW : ℚ) / camH) / ((cfgW : ℚ) / cfgH), 2)) := by
  have hta : (0 : ℚ) < (cfgW : ℚ) / cfgH := by
    apply div_pos <;> exact_mod_cast ‹_›
  unfold quadLayout
  rw [if_neg (show ¬(camH = 0 ∨ cfgH = 0) by omega)]
  by_cases hbr : ((cfgW : ℚ) / cfgH) < (camW : ℚ) / camH
  · have hca : (0 : ℚ) < (camW : ℚ) / camH := lt_trans hta hbr
    rw [if_pos hbr]
    refine ⟨2, 2 / ((camW : ℚ) / camH) * ((cfgW : ℚ) / cfgH), rfl, ?_, ?_, ?_⟩
    · field_simp
      ring
    · intro _
      rw [Prod.mk.injEq]
      constructor
      · rfl
      · rw [div_mul_eq_mul_div]
    · intro hc
      exact absurd hbr hc
  · rw [if_neg hbr, if_neg (show ¬(cfgW = 0) by omega)]
    refine ⟨2 * ((camW : ℚ) / camH) / ((cfgW : ℚ) / cfgH), 2, rfl, ?_, ?_, ?_⟩
    · field_simp
      ring
    · intro hc
      exact absurd hc hbr
    · intro _
      rfl

/-- C6 witness: the amended theorem applied to a 1280x720 camera frame on
an 800x600 render target. -/
theorem quad_layout_aspect_witness :
    0 < 720 ∧ 0 < 800 ∧ 0 < 600 ∧
    (∃ sx sy : ℚ, quadLayout 1280 720 800 600 = some ((0, 0), (sx, sy)) ∧
      sx / sy * ((800 : ℚ) / 600) = (1280 : ℚ) / 720 ∧
      (((800 : ℚ) / 600) < (1280 : ℚ) / 720 →
        (sx, sy) = (2, 2 * ((800 : ℚ) / 600) / ((1280 : ℚ) / 720))) ∧
      (¬ ((800 : ℚ) / 600) < (1280 : ℚ) / 720 →
        (sx, sy) = (2 * ((1280 : ℚ) / 720) / ((800 : ℚ) / 600), 2))) := by
  refine ⟨by norm_num, by norm_num, by norm_num, ?_⟩
  have h := quad_layout_aspect 1280 720 800 600 (by norm_num) (by norm_num) (by norm_num)
  exact_mod_cast h

/-! ## Claim C7 -/

/-- C7 counterexample: the in-frame quad layout path performs no clamping
of its own: on a zero-height render-target configuration the code divides
`config.width` by zero (f32 inf/NaN, modelled as `none`), refuting the
claim that both geometry functions clamp dimensions to a minimum of 1 so
that no division by zero occurs for every input. -/
theorem quad_div_zero_cex : quadLayout 1280 720 800 0 = none := by
  unfold quadLayout
  rw [if_pos (by omega)]

/-- C7 (amended): `calculate_overlay_geometry` clamps its returned size to
a minimum of 1 for every input; the in-frame quad layout clamps nothing
itself and divides by the raw camera height and raw config dimensions, but
every write site of the stored surface configuration clamps both
dimensions to a minimum of 1 (`configClampDims`), so for any stored
configuration (dimensions ≥ 1) and a camera frame of nonzero height none
of the quad layout's divisions has a zero divisor. -/
theorem geometry_clamp_spec :
    (∀ (mainX mainY : ℤ) (mainW mainH : ℕ) (camera_aspect : ℚ),
        1 ≤ ((calculate_overlay_geometry mainX mainY mainW mainH camera_aspect).2).1 ∧
        1 ≤ ((calculate_overlay_geometry mainX mainY mainW mainH camera_aspect).2).2)
    ∧ (∀ w h : ℕ, 1 ≤ (configClampDims w h).1 ∧ 1 ≤ (configClampDims w h).2)
    ∧ (∀ camW camH cfgW cfgH : ℕ, 0 < camH → 0 < cfgW → 0 < cfgH →
        (quadLayout camW camH cfgW cfgH).isSome = true) := by
  refine ⟨?_, ?_, ?_⟩
  · intro mainX mainY mainW mainH camera_aspect
    exact ⟨Nat.le_max_right _ 1, Nat.le_max_right _ 1⟩
  · intro w h
    exact ⟨Nat.le_max_right _ 1, Nat.le_max_right _ 1⟩
  · intro camW camH cfgW cfgH hcamH hcfgW hcfgH
    unfold quadLayout
    rw [if_neg (show ¬(camH = 0 ∨ cfgH = 0) by omega)]
    by_cases hbr : ((cfgW : ℚ) / cfgH) < (camW : ℚ) / camH
    · rw [if_pos hbr]
      rfl
    · rw [if_neg hbr, if_neg (show ¬(cfgW = 0) by omega)]
      rfl

/-- C7 witness: the amended theorem's quad-layout clause applied at a
concrete positive configuration, together with the overlay-size clause at
a degenerate zero-sized host window. -/
theorem geometry_clamp_spec_witness :
    0 < 720 ∧ 0 < 800 ∧ 0 < 600 ∧
    (quadLayout 1280 720 800 600).isSome = true ∧
    (1 ≤ ((calculate_overlay_geometry 0 0 0 0 (16 / 9)).2).1 ∧
      1 ≤ ((calculate_overlay_geometry 0 0 0 0 (16 / 9)).2).2) :=
  ⟨by norm_num, by norm_num, by norm_num,
    geometry_clamp_spec.2.2 1280 720 800 600 (by norm_num) (by norm_num) (by norm_num),
    geometry_clamp_spec.1 0 0 0 0 (16 / 9)⟩

/-! ## Claim C5 -/

/-- The render loop handles every received frame and reaches the end of
the channel: no acquisition outcome is fatal to the loop. -/
theorem renderLoop_received (frames : List FrameAcq) :
    (renderLoop frames).received = frames.length := by
  induction frames with
  | nil => rfl
  | cons f rest ih =>
      simp only [renderLoop, List.length_cons]
      rw [ih]

/-- C5: acquisition of the next presentable image retries exactly once
after a reconfigure on `Outdated`/`Lost` (one `surface.configure` run,
then the retry's outcome decides between presenting and skipping); any
other error performs no reconfigure and skips the frame; a successful
first attempt presents with no reconfigure; and no outcome is fatal — the
loop handles every received frame. -/
theorem acquire_retry_spec :
    (∀ (t : ℕ) (second : Except SurfaceError ℕ),
        getCurrentTextureWithRetry (.ok t) second = (some t, 0))
    ∧ (∀ t : ℕ, getCurrentTextureWithRetry (.error .outdated) (.ok t) = (some t, 1))
    ∧ (∀ t : ℕ, getCurrentTextureWithRetry (.error .lost) (.ok t) = (some t, 1))
    ∧ (∀ e : SurfaceError,
        getCurrentTextureWithRetry (.error .outdated) (.error e) = (none, 1))
    ∧ (∀ e : SurfaceError,
        getCurrentTextureWithRetry (.error .lost) (.error e) = (none, 1))
    ∧ (∀ second : Except SurfaceError ℕ,
        getCurrentTextureWithRetry (.error .timeout) second = (none, 0))
    ∧ (∀ second : Except SurfaceError ℕ,
        getCurrentTextureWithRetry (.error .outOfMemory) second = (none, 0))
    ∧ (∀ second : Except SurfaceError ℕ,
        getCurrentTextureWithRetry (.error .other) second = (none, 0))
    ∧ (∀ frames : List FrameAcq, (renderLoop frames).received = frames.length) :=
  ⟨fun _ _ => rfl, fun _ => rfl, fun _ => rfl, fun _ => rfl, fun _ => rfl,
   fun _ => rfl, fun _ => rfl, fun _ => rfl, renderLoop_received⟩

/-! ## Claim C10 -/

/-- `takeWhile` of a constantly-true test keeps the whole list. -/
theorem takeWhile_const_true (l : List ℕ) :
    l.takeWhile (fun _ => true) = l := by
  induction l with
  | nil => rfl
  | cons x rest ih =>
      rw [List.takeWhile_cons]
      simpa using ih

/-- C10: the camera producer sends at most 1000 frames (exactly 1000 when
every send succeeds, i.e. the receiver stays alive) and then stops the
stream; the render loop, which runs while `rx.recv()` succeeds, handles
one iteration per received frame, so over the frames of one producer it
terminates after at most 1000 iterations even though the camera `cam`
could keep producing indefinitely. -/
theorem producer_frame_bound :
    (∀ (cam : ℕ → ℕ) (sendOk : ℕ → Bool),
        (producedFrames cam sendOk).length ≤ 1000)
    ∧ (∀ cam : ℕ → ℕ, (producedFrames cam (fun _ => true)).length = 1000)
    ∧ (∀ (cam : ℕ → ℕ) (sendOk : ℕ → Bool) (frames : List FrameAcq),
        frames.length = (producedFrames cam sendOk).length →
        (renderLoop frames).received = frames.length ∧
        (renderLoop frames).received ≤ 1000) := by
  have hlen : ∀ (cam : ℕ → ℕ) (sendOk : ℕ → Bool),
      (producedFrames cam sendOk).length ≤ 1000 := by
    intro cam sendOk
    unfold producedFrames
    rw [List.length_map]
    have := (List.takeWhile_sublist (l := List.range 1000) sendOk).length_le
    simpa using this
  refine ⟨hlen, ?_, ?_⟩
  · intro cam
    unfold producedFrames
    rw [takeWhile_const_true]
    simp
  · intro cam sendOk frames hf
    refine ⟨renderLoop_received frames, ?_⟩
    rw [renderLoop_received frames, hf]
    exact hlen cam sendOk

/-- C10 witness: the linking clause applied to a producer whose very first
send fails (empty channel) and the matching empty receive sequence. -/
theorem producer_frame_bound_witness :
    ([] : List FrameAcq).length = (producedFrames (fun _ => 0) (fun _ => false)).length ∧
    (renderLoop []).received = ([] : List FrameAcq).length ∧
    (renderLoop []).received ≤ 1000 :=
  ⟨rfl, producer_frame_bound.2.2 (fun _ => 0) (fun _ => false) [] rfl⟩

/-! ## Claims C3 and C4: the two-call interleaving model -/

theorem mem_allBools (b : Bool) : b ∈ allBools := by
  cases b <;> simp [allBools]

theorem mem_allPhases (p : TogglePhase) : p ∈ allPhases := by
  cases p with
  | start => simp [allPhases]
  | checked o => cases o <;> simp [allPhases]
  | modeRead x => cases x <;> simp [allPhases]
  | modeStored m => cases m <;> simp [allPhases]
  | pauseSet m => cases m <;> simp [allPhases]
  | switched m => cases m <;> simp [allPhases]
  | resumed m => cases m <;> simp [allPhases]
  | finished r s => cases r <;> cases s <;> simp [allPhases]

/-- A property checked exhaustively by `checkAll` holds of every
configuration. -/
theorem checkAll_spec (g : Bool → SysConfig → Bool) (h : checkAll g = true)
    (m0 : Bool) (c : SysConfig) : g m0 c = true := by
  obtain ⟨⟨m, p, ip⟩, t1, t2⟩ := c
  have h1 := List.all_eq_true.mp h _ (mem_allBools m0)
  have h2 := List.all_eq_true.mp h1 _ (mem_allBools m)
  have h3 := List.all_eq_true.mp h2 _ (mem_allBools p)
  have h4 := List.all_eq_true.mp h3 _ (mem_allBools ip)
  have h5 := List.all_eq_true.mp h4 _ (mem_allPhases t1)
  exact List.all_eq_true.mp h5 _ (mem_allPhases t2)

/-- The invariant is preserved by every scheduler step. -/
theorem invB_step (m0 : Bool) (c : SysConfig) (who : Bool)
    (h : InvB m0 c = true) : InvB m0 (stepSys c who) = true := by
  have hc : checkAll (fun m0 c =>
      (!(InvB m0 c)) || (InvB m0 (stepSys c true) && InvB m0 (stepSys c false)))
      = true := by decide
  have hg := checkAll_spec _ hc m0 c
  rw [Bool.or_eq_true] at hg
  rcases hg with hbad | hgood
  · simp [h] at hbad
  · rw [Bool.and_eq_true] at hgood
    cases who
    · exact hgood.2
    · exact hgood.1

/-- The invariant holds in the initial configuration. -/
theorem invB_init (m0 : Bool) : InvB m0 (initSys m0) = true := by
  cases m0 <;> decide

/-- The invariant holds in every reachable configuration. -/
theorem invB_runSys (m0 : Bool) (sched : List Bool) (c : SysConfig)
    (h : InvB m0 c = true) : InvB m0 (runSys c sched) = true := by
  induction sched generalizing c with
  | nil => exact h
  | cons who rest ih => exact ih _ (invB_step m0 c who h)

/-- C3: a `toggle_camera_mode` call that observes a switch already in
progress is a no-op — it changes no shared state, performs no surface
switch, and returns the current (unchanged) mode (first clause); and for
two concurrent calls started together, every complete interleaving in
which one call was debounced (finished without switching) ends in the
single consistent final state: the other call performed the one and only
switch, the mode is exactly the negation of the initial mode, and the
pause and in-progress flags are clear (second and third clauses). -/
theorem toggle_debounce_noop :
    (∀ (s : AppState) (r sw : Bool), s.switch_in_progress = true →
        runSys ⟨s, .start, .finished r sw⟩ [true, true]
          = ⟨s, .finished s.is_background_mode false, .finished r sw⟩)
    ∧ (∀ (m0 : Bool) (sched : List Bool) (sh : AppState) (ra sa rb : Bool),
        runSys (initSys m0) sched = ⟨sh, .finished ra sa, .finished rb false⟩ →
        sa = true ∧ sh = ⟨!m0, false, false⟩)
    ∧ (∀ (m0 : Bool) (sched : List Bool) (sh : AppState) (ra rb sb : Bool),
        runSys (initSys m0) sched = ⟨sh, .finished ra false, .finished rb sb⟩ →
        sb = true ∧ sh = ⟨!m0, false, false⟩) := by
  have hc : checkAll (fun m0 c =>
      (!(InvB m0 c)) || (!(isFinished c.t1)) || (!(isFinished c.t2)) ||
        (((!(isFinishedNoSwitch c.t2)) ||
            (isFinishedSwitch c.t1 && (c.shared == AppState.mk (!m0) false false)))
         && ((!(isFinishedNoSwitch c.t1)) ||
            (isFinishedSwitch c.t2 && (c.shared == AppState.mk (!m0) false false)))))
      = true := by decide
  refine ⟨?_, ?_, ?_⟩
  · intro s r sw h
    obtain ⟨m, p, ip⟩ := s
    have hip : ip = true := h
    subst hip
    rfl
  · intro m0 sched sh ra sa rb hrun
    have hInv := invB_runSys m0 sched (initSys m0) (invB_init m0)
    rw [hrun] at hInv
    have hg := checkAll_spec _ hc m0 ⟨sh, .finished ra sa, .finished rb false⟩
    simp only [isFinished, isFinishedSwitch, isFinishedNoSwitch, hInv,
      Bool.not_true, Bool.false_or, Bool.not_false, Bool.true_or, Bool.and_eq_true,
      Bool.or_eq_true, Bool.not_eq_true, beq_iff_eq] at hg
    exact hg.1
  · intro m0 sched sh ra rb sb hrun
    have hInv := invB_runSys m0 sched (initSys m0) (invB_init m0)
    rw [hrun] at hInv
    have hg := checkAll_spec _ hc m0 ⟨sh, .finished ra false, .finished rb sb⟩
    simp only [isFinished, isFinishedSwitch, isFinishedNoSwitch, hInv,
      Bool.not_true, Bool.false_or, Bool.not_false, Bool.true_or, Bool.and_eq_true,
      Bool.or_eq_true, Bool.not_eq_true, beq_iff_eq] at hg
    exact hg.2

/-- C3 witness: the no-op clause applied in a state with a switch in
flight, and the final-state clause applied to a concrete complete
interleaving in which call 2 hits the debounce while call 1 is mid-swap. -/
theorem toggle_debounce_noop_witness :
    ((⟨false, false, true⟩ : AppState).switch_in_progress = true ∧
      runSys ⟨⟨false, false, true⟩, .start, .finished false false⟩ [true, true]
        = ⟨⟨false, false, true⟩, .finished false false, .finished false false⟩)
    ∧ (runSys (initSys false) [true, false, false, true, true, true, true, true, true]
        = ⟨⟨true, false, false⟩, .finished true true, .finished false false⟩
      ∧ (true = true ∧ (⟨true, false, false⟩ : AppState) = ⟨!false, false, false⟩)) := by
  refine ⟨⟨rfl, toggle_debounce_noop.1 ⟨false, false, true⟩ false false rfl⟩, ?_, ?_⟩
  · decide
  · exact toggle_debounce_noop.2.1 false
      [true, false, false, true, true, true, true, true, true]
      ⟨true, false, false⟩ true true false (by decide)

/-- C4: in every reachable configuration of the toggle control path,
whenever a call is at its `switch_surface` call or has just completed it
(it is between its `render_paused.store(true)` and its
`render_paused.store(false)`), the shared `render_paused` flag is true;
in particular the step that performs the surface switch starts and ends
with `render_paused = true`, so the pause covers the entire in-flight
swap, and the flag is only cleared by program order after the swap has
completed. -/
theorem render_paused_during_swap (m0 : Bool) (sched : List Bool) :
    ((holdsPause (runSys (initSys m0) sched).t1
        || holdsPause (runSys (initSys m0) sched).t2) = true →
      (runSys (initSys m0) sched).shared.render_paused = true)
    ∧ (∀ who : Bool,
        atSwitchCall (if who then (runSys (initSys m0) sched).t1
          else (runSys (initSys m0) sched).t2) = true →
        (runSys (initSys m0) sched).shared.render_paused = true ∧
        (stepSys (runSys (initSys m0) sched) who).shared.render_paused = true) := by
  have hInv := invB_runSys m0 sched (initSys m0) (invB_init m0)
  have hc : checkAll (fun m0 c =>
      (!(InvB m0 c)) ||
        (((!(holdsPause c.t1 || holdsPause c.t2)) || c.shared.render_paused)
         && ((!(atSwitchCall c.t1))
              || (c.shared.render_paused && (stepSys c true).shared.render_paused))
         && ((!(atSwitchCall c.t2))
              || (c.shared.render_paused && (stepSys c false).shared.render_paused))))
      = true := by decide
  have hg := checkAll_spec _ hc m0 (runSys (initSys m0) sched)
  simp only [hInv, Bool.not_true, Bool.false_or, Bool.and_eq_true] at hg
  obtain ⟨⟨hpause, hsw1⟩, hsw2⟩ := hg
  constructor
  · intro h
    rw [h] at hpause
    simpa using hpause
  · intro who hwho
    cases who
    · rw [if_neg Bool.false_ne_true] at hwho
      rw [hwho] at hsw2
      simp only [Bool.not_true, Bool.false_or, Bool.and_eq_true] at hsw2
      exact hsw2
    · rw [if_pos rfl] at hwho
      rw [hwho] at hsw1
      simp only [Bool.not_true, Bool.false_or, Bool.and_eq_true] at hsw1
      exact hsw1

/-- C4 witness: the theorem applied to a schedule that leaves call 1 at
its imminent `switch_surface` call; the pause flag is set. -/
theorem render_paused_during_swap_witness :
    (holdsPause (runSys (initSys false) [true, true, true, true]).t1
      || holdsPause (runSys (initSys false) [true, true, true, true]).t2) = true ∧
    (runSys (initSys false) [true, true, true, true]).shared.render_paused = true :=
  ⟨by decide,
    (render_paused_during_swap false [true, true, true, true]).1 (by decide)⟩
